import Mathlib

/-!
# Verification of the textual core: recency cache and tree widget

This file gives a shallow embedding of the parts of the repository that the
spec's testable properties talk about:

* `src/textual/_cache.py` — the `LRUCache` class (a dictionary plus a circular
  doubly-linked list of `[PREV, NEXT, KEY, VALUE]` entries whose head
  `self.root` is the most-recently-used entry and whose `root[0]` is the
  least-recently-used entry);
* `src/textual/widgets/_tree_node.py` — `TreeNode` traversal
  (`next_node`, `previous_node`, `next_sibling`, `previous_sibling`);
* `src/textual/widgets/_tree_control.py` — `TreeControl` cursor state
  (`find_cursor`, `cursor_down`, `cursor_up`) and node expansion.

Theorems after the definitions settle the spec's claims about these
components.
-/

namespace Textual

/-! ## LRUCache (`src/textual/_cache.py`)

The Python implementation keeps two structures that are kept in lockstep:
the dict `self.cache` (key → entry) and the circular linked list of entries
reachable from `self.root` (head = most recently used; `root[0]` = least
recently used).  We model the pair by a single association list `items`,
ordered most-recently-used first, so that

* the dict contents are the `(key, value)` pairs of `items`;
* the linked list order, read from `self.root` along the NEXT pointers,
  is the order of `items` (head of `items` = `self.root`, last of `items`
  = `root[0]`, the entry evicted on overflow).

This identification is exact for every state reachable with `maxsize ≥ 1`:
the first insertion can then never trigger the eviction branch, so whenever
the eviction branch runs the list holds at least two entries, `last = root[0]`
is a genuine non-root entry whose key is in the dict, and unlinking it plus
`del self.cache[last[2]]` removes exactly the last pair from both structures.
(With `maxsize ≤ 0` the Python original can desynchronize the two structures
— evicting the sole, self-linked entry leaves a stale node in the ring — so
theorems below that involve cache operations always assume, or instantiate,
a positive capacity; the construction-time claim C9 is settled purely on
`__init__`, which performs no validation and is modelled exactly.)
-/

/-- Lookup in an association list; mirrors `self.cache.get(key)` returning
the value stored in the entry (`link[3]`). -/
def lookupKV {K V : Type} [DecidableEq K] (k : K) : List (K × V) → Option V
  | [] => none
  | (k', v) :: rest => if k = k' then some v else lookupKV k rest

/-- Remove the (single) entry with the given key; mirrors unlinking one
entry from the circular list. -/
def removeKey {K V : Type} [DecidableEq K] (k : K) : List (K × V) → List (K × V)
  | [] => []
  | (k', v) :: rest => if k = k' then rest else (k', v) :: removeKey k rest

/-- State of `LRUCache`: `maxsize` as stored by `__init__` (a Python `int`,
so an `Int` here), `items` the dict/linked-list contents in
most-recently-used-first order, and the `full` flag. -/
structure LRUCache (K V : Type) where
  maxsize : Int
  items : List (K × V)
  full : Bool
deriving Repr, DecidableEq

namespace LRUCache

variable {K V : Type} [DecidableEq K]

/-- `__init__(maxsize)`: stores `maxsize` unchecked, empty dict,
`full = False`, `root = []`. -/
def init (maxsize : Int) : LRUCache K V :=
  { maxsize := maxsize, items := [], full := false }

/-- `__len__`: `len(self.cache)`. -/
def length (c : LRUCache K V) : Nat := c.items.length

/-- `clear()`: empties the dict, resets `full`, resets `root = []`. -/
def clear (c : LRUCache K V) : LRUCache K V :=
  { c with items := [], full := false }

/-- `__contains__(key)`: `key in self.cache`. -/
def contains (k : K) (c : LRUCache K V) : Bool :=
  (lookupKV k c.items).isSome

/-- `set(key, value)` (also bound as `__setitem__`):

* `link = self.cache.get(key)`; when the key is already present
  (`link is not None`) the function body is skipped entirely — nothing is
  written and the recency order is untouched;
* otherwise the new entry is spliced in as the new `self.root`
  (most-recently-used position, i.e. the head of `items`) and put in the
  dict;
* then, if `self.full or len(self.cache) > self.maxsize`, the flag is set
  and the entry `last = root[0]` (the least-recently-used entry, i.e. the
  last of `items`) is unlinked and deleted from the dict. -/
def set (c : LRUCache K V) (k : K) (v : V) : LRUCache K V :=
  match lookupKV k c.items with
  | some _ => c
  | none =>
    if c.full || c.maxsize < (((k, v) :: c.items).length : Int) then
      { c with items := ((k, v) :: c.items).dropLast, full := true }
    else
      { c with items := (k, v) :: c.items }

/-- `get(key, default=None)` with the default left at `None`: returns the
stored value (`link[3]`) and, unless the entry already is `self.root`
(the head), relinks the entry to the most-recently-used position.  Returns
the looked-up value (`none` = Python's `None` default) together with the
updated cache. -/
def get (c : LRUCache K V) (k : K) : Option V × LRUCache K V :=
  match lookupKV k c.items with
  | none => (none, c)
  | some v =>
    if c.items.head?.map Prod.fst = some k then
      (some v, c)
    else
      (some v, { c with items := (k, v) :: removeKey k c.items })

end LRUCache

/-- One observable cache operation, for claims that quantify over sequences
of `set`/`get` calls. -/
inductive CacheOp (K V : Type) where
  | set (k : K) (v : V)
  | get (k : K)
deriving Repr, DecidableEq

/-- Apply one operation (the value returned by `get` is discarded; only the
state matters for the invariants). -/
def applyOp {K V : Type} [DecidableEq K] (c : LRUCache K V) : CacheOp K V → LRUCache K V
  | .set k v => c.set k v
  | .get k => (c.get k).2

/-- Run a sequence of cache operations. -/
def runOps {K V : Type} [DecidableEq K] (c : LRUCache K V) (ops : List (CacheOp K V)) :
    LRUCache K V :=
  ops.foldl applyOp c

/-! ### Cache lemmas -/

section CacheLemmas

variable {K V : Type} [DecidableEq K]

theorem removeKey_length {k : K} {items : List (K × V)} {v : V}
    (h : lookupKV k items = some v) :
    (removeKey k items).length + 1 = items.length := by
  induction items with
  | nil => simp [lookupKV] at h
  | cons kv rest ih =>
    obtain ⟨k', v'⟩ := kv
    by_cases hk : k = k'
    · simp [removeKey, hk]
    · simp only [lookupKV, if_neg hk] at h
      simp [removeKey, hk, ih h]

theorem applyOp_maxsize (c : LRUCache K V) (op : CacheOp K V) :
    (applyOp c op).maxsize = c.maxsize := by
  cases op with
  | set k v =>
    cases hl : lookupKV k c.items with
    | some v' => simp [applyOp, LRUCache.set, hl]
    | none =>
      simp only [applyOp, LRUCache.set, hl]
      split
      · rfl
      · rfl
  | get k =>
    cases hl : lookupKV k c.items with
    | none => simp [applyOp, LRUCache.get, hl]
    | some v =>
      simp only [applyOp, LRUCache.get, hl]
      split
      · rfl
      · rfl

theorem applyOp_length_le (c : LRUCache K V) (op : CacheOp K V)
    (h : (c.items.length : Int) ≤ c.maxsize) :
    ((applyOp c op).items.length : Int) ≤ c.maxsize := by
  cases op with
  | set k v =>
    cases hl : lookupKV k c.items with
    | some v' => simpa [applyOp, LRUCache.set, hl] using h
    | none =>
      simp only [applyOp, LRUCache.set, hl]
      split
      · next hcond =>
        have hlen : (((k, v) :: c.items).dropLast).length = c.items.length := by
          simp [List.length_dropLast]
        simp only [hlen]
        exact h
      · next hcond =>
        simp only [Bool.or_eq_true, decide_eq_true_eq, not_or, List.length_cons] at hcond
        have h2 := hcond.2
        simp only [List.length_cons]
        push_cast at h2 ⊢
        omega
  | get k =>
    cases hl : lookupKV k c.items with
    | none => simpa [applyOp, LRUCache.get, hl] using h
    | some v =>
      simp only [applyOp, LRUCache.get, hl]
      split
      · exact h
      · have hlen := removeKey_length hl
        simp only [List.length_cons]
        push_cast
        omega

theorem runOps_length_le (c : LRUCache K V) (ops : List (CacheOp K V))
    (h : (c.items.length : Int) ≤ c.maxsize) :
    ((runOps c ops).items.length : Int) ≤ c.maxsize := by
  induction ops generalizing c with
  | nil => exact h
  | cons op rest ih =>
    have h1 := applyOp_length_le c op h
    have h2 := applyOp_maxsize c op
    simpa [runOps, List.foldl, h2] using ih (applyOp c op) (h2 ▸ h1)

theorem runOps_maxsize (c : LRUCache K V) (ops : List (CacheOp K V)) :
    (runOps c ops).maxsize = c.maxsize := by
  induction ops generalizing c with
  | nil => rfl
  | cons op rest ih => simpa [runOps, List.foldl, applyOp_maxsize] using ih (applyOp c op)

end CacheLemmas

/-! ### Claims about the cache -/

/-- C1: the claim says `set(k, v); get(k)` returns `v` even when `k` was
already present with a different value (set overwrites).  In the code,
`set` returns without doing anything when `self.cache.get(key)` is not
`None`, so the old value survives: with capacity 2, after
`set(1, 10); set(1, 20)`, `get(1)` returns `10`, not `20`. -/
theorem claim_C1_set_does_not_overwrite :
    ((((LRUCache.init 2 : LRUCache Nat Nat).set 1 10).set 1 20).get 1).1 = some 10 ∧
    ((((LRUCache.init 2 : LRUCache Nat Nat).set 1 10).set 1 20).get 1).1 ≠ some 20 := by
  decide

/-- C2: when `set` introduces a new key and the map size exceeds the
capacity (or the `full` flag was already set), exactly the single
least-recently-used entry (the last of `items`, i.e. the entry `root[0]`
adjacent to the root on the oldest side) is evicted before `set` returns;
and in the capacity-2 scenario `set(1,10); set(2,20); get(1); set(3,30)`,
key 2 is evicted while keys 1 and 3 remain. -/
theorem claim_C2_lru_eviction :
    (∀ {K V : Type} [DecidableEq K] (c : LRUCache K V) (k : K) (v : V),
      lookupKV k c.items = none →
      (c.full = true ∨ c.maxsize < (c.items.length : Int) + 1) →
      c.items ≠ [] →
      (c.set k v).items = (k, v) :: c.items.dropLast ∧ (c.set k v).full = true) ∧
    ((LRUCache.contains 1
        ((((((LRUCache.init 2 : LRUCache Nat Nat).set 1 10).set 2 20).get 1).2).set 3 30)
        = true) ∧
      (LRUCache.contains 3
        ((((((LRUCache.init 2 : LRUCache Nat Nat).set 1 10).set 2 20).get 1).2).set 3 30)
        = true) ∧
      (LRUCache.contains 2
        ((((((LRUCache.init 2 : LRUCache Nat Nat).set 1 10).set 2 20).get 1).2).set 3 30)
        = false)) := by
  constructor
  · intro K V _ c k v hlk hcond hne
    obtain ⟨ms, items, fl⟩ := c
    simp only at hlk hcond hne ⊢
    obtain ⟨kv0, rest, rfl⟩ := List.exists_cons_of_ne_nil hne
    have hc : fl = true ∨ ms < ((rest.length : Int) + 1 + 1) := by
      rcases hcond with h | h
      · exact Or.inl h
      · right
        simp only [List.length_cons] at h
        push_cast at h ⊢
        omega
    simp only [LRUCache.set, hlk, List.dropLast, List.length_cons]
    push_cast
    have hb : (fl || decide (ms < (rest.length : Int) + 1 + 1)) = true := by
      rcases hc with h | h
      · simp [h]
      · simp [h]
    rw [if_pos hb]
    exact ⟨rfl, rfl⟩
  · exact ⟨by decide, by decide, by decide⟩

/-- Witness for C2's universally quantified part at a concrete instance. -/
theorem claim_C2_lru_eviction_witness :
    lookupKV 3 ([(1, 10), (2, 20)] : List (Nat × Nat)) = none ∧
    (({ maxsize := 2, items := [(1, 10), (2, 20)], full := false } :
        LRUCache Nat Nat).set 3 30).items = [(3, 30), (1, 10)] := by
  refine ⟨by decide, ?_⟩
  have h := claim_C2_lru_eviction.1
    ({ maxsize := 2, items := [(1, 10), (2, 20)], full := false } : LRUCache Nat Nat)
    3 30 (by decide) (Or.inr (by decide)) (by decide)
  simpa using h.1

/-- C3: starting from a cache with positive capacity, after any sequence of
`set`/`get` operations the observable `len()` never exceeds the capacity
once the cache has overflowed (`full` set).  (The proof establishes the
stronger invariant that the length never exceeds the capacity at all.) -/
theorem claim_C3_length_bounded {K V : Type} [DecidableEq K]
    (m : Int) (ops : List (CacheOp K V)) (hm : 1 ≤ m)
    (_hfull : (runOps (LRUCache.init m : LRUCache K V) ops).full = true) :
    ((runOps (LRUCache.init m : LRUCache K V) ops).length : Int) ≤ m := by
  have h0 : (((LRUCache.init m : LRUCache K V)).items.length : Int)
      ≤ (LRUCache.init m : LRUCache K V).maxsize := by
    simp [LRUCache.init]
    omega
  simpa [LRUCache.length, LRUCache.init] using
    runOps_length_le (LRUCache.init m : LRUCache K V) ops h0

/-- Witness for C3 at capacity 1 with an overflowing operation sequence. -/
theorem claim_C3_length_bounded_witness :
    (runOps (LRUCache.init 1 : LRUCache Nat Nat) [.set 1 1, .set 2 2]).full = true ∧
    ((runOps (LRUCache.init 1 : LRUCache Nat Nat) [.set 1 1, .set 2 2]).length : Int) ≤ 1 :=
  ⟨by decide, claim_C3_length_bounded 1 [.set 1 1, .set 2 2] (by decide) (by decide)⟩

/-- C9 counterexample: the claim says a non-positive `maxsize` is reported
as an error at construction time.  `__init__` performs no validation:
constructing with `maxsize = 0` returns an ordinary empty cache, and
operations on it proceed without any construction-time error (a `set`
immediately evicts the entry it just inserted). -/
theorem claim_C9_counterexample :
    (LRUCache.init 0 : LRUCache Nat Nat) = ⟨0, [], false⟩ ∧
    ((LRUCache.init 0 : LRUCache Nat Nat).set 1 2).items = [] ∧
    ((LRUCache.init 0 : LRUCache Nat Nat).set 1 2).full = true ∧
    (((LRUCache.init 0 : LRUCache Nat Nat).set 1 2).get 1).1 = none := by
  exact ⟨rfl, by decide, by decide, by decide⟩

/-- C9 (amended): constructing an `LRUCache` with non-positive capacity is
not rejected; `__init__` stores the given `maxsize` unchecked and returns
an empty, non-full cache. -/
theorem claim_C9_no_construction_check {K V : Type} (m : Int) (_hm : m ≤ 0) :
    (LRUCache.init m : LRUCache K V) = ⟨m, [], false⟩ ∧
    (LRUCache.init m : LRUCache K V).items.length = 0 ∧
    (LRUCache.init m : LRUCache K V).full = false :=
  ⟨rfl, rfl, rfl⟩

/-- Witness for C9's amended statement at `maxsize = 0`. -/
theorem claim_C9_no_construction_check_witness :
    (0 : Int) ≤ 0 ∧ (LRUCache.init 0 : LRUCache Nat Nat) = ⟨0, [], false⟩ :=
  ⟨by decide, (claim_C9_no_construction_check (K := Nat) (V := Nat) 0 (by decide)).1⟩

/-! ## TreeNode / TreeControl (`_tree_node.py`, `_tree_control.py`)

A `TreeNode` owns an ordered list of children, an `expanded` flag, a parent
back-reference, and a process-unique `node_id`; the `TreeControl` keeps a
`node_id → TreeNode` table.  We embed the node graph as a rose tree and
identify a node by its *position*: the list of child indices from the node
up to the root (leaf-first, so `head` is the node's index in its parent's
children list and `[]` is the root).  Since `node_id`s are unique per tree
and the `nodes` table is a bijection between ids and positions, the
`parent` pointer is the tail of the position and the sibling scans of
`next_sibling`/`previous_sibling` (which locate `self` in
`parent.children` by identity and step once) become index arithmetic on
the head.  The node's `label`/`data` payloads play no role in any claim
and are omitted. -/

/-- A tree node: `expanded` flag plus ordered children.  (`label`, `data`,
`loaded` and the render fields do not affect traversal or cursor state.) -/
inductive RTree where
  | node (expanded : Bool) (children : List RTree)

/-- Leaf-first position of a node: `head` = index in the parent's children
list, `[]` = the root. -/
abbrev Path := List Nat

namespace RTree

/-- The `expanded` property. -/
def expanded : RTree → Bool
  | node e _ => e

/-- The `children` list. -/
def children : RTree → List RTree
  | node _ cs => cs

end RTree

mutual

/-- Decidable equality on trees (the automatic deriving does not handle the
nested `List`). -/
def RTree.decEq : (a b : RTree) → Decidable (a = b)
  | .node e cs, .node e' cs' =>
    match Bool.decEq e e', RTree.decEqList cs cs' with
    | isTrue h1, isTrue h2 => isTrue (by rw [h1, h2])
    | isFalse h1, _ => isFalse (fun h => by injection h; exact h1 (by assumption))
    | _, isFalse h2 => isFalse (fun h => by injection h; exact h2 (by assumption))

/-- Decidable equality on lists of trees. -/
def RTree.decEqList : (a b : List RTree) → Decidable (a = b)
  | [], [] => isTrue rfl
  | [], _ :: _ => isFalse (fun h => by injection h)
  | _ :: _, [] => isFalse (fun h => by injection h)
  | c :: cs, c' :: cs' =>
    match RTree.decEq c c', RTree.decEqList cs cs' with
    | isTrue h1, isTrue h2 => isTrue (by rw [h1, h2])
    | isFalse h1, _ => isFalse (fun h => by injection h; exact h1 (by assumption))
    | _, isFalse h2 => isFalse (fun h => by injection h; exact h2 (by assumption))

end

instance : DecidableEq RTree := RTree.decEq

/-- Resolve a position to its node (the `nodes[node_id]` lookup composed
with the parent/child links); `none` only on positions that name no node. -/
def subtreeAt (t : RTree) : Path → Option RTree
  | [] => some t
  | i :: rest =>
    match subtreeAt t rest with
    | some n => n.children.get? i
    | none => none

/-- `TreeNode.next_sibling`: scan the parent's children for `self` and
return the following one; at a position `i :: rest` the scan finds `self`
at index `i`, so the next sibling exists iff `i + 1` is still a valid
index.  The root (`parent is None`) has no sibling. -/
def next_sibling (t : RTree) : Path → Option Path
  | [] => none
  | i :: rest =>
    match subtreeAt t rest with
    | some parent =>
      if i + 1 < parent.children.length then some ((i + 1) :: rest) else none
    | none => none

/-- `TreeNode.previous_sibling`: the sibling scanned just before `self`,
i.e. index `i - 1` when `i ≠ 0`; `None` for the first child and for the
root. -/
def previous_sibling (t : RTree) : Path → Option Path
  | [] => none
  | i :: rest =>
    match subtreeAt t rest with
    | some _ => if i = 0 then none else some ((i - 1) :: rest)
    | none => none

/-- The `while True` loop at the end of `TreeNode.next_node`: starting
from `node = self`, return `None` when `node.parent is None`, else return
`node.parent.next_sibling` when it exists, else ascend
(`node = node.parent`). -/
def next_node_up (t : RTree) : Path → Option Path
  | [] => none
  | _ :: rest =>
    match next_sibling t rest with
    | some s => some s
    | none => next_node_up t rest

/-- `TreeNode.next_node`: the first child when expanded with children;
else the next sibling; else the ascending loop `next_node_up`. -/
def next_node (t : RTree) (p : Path) : Option Path :=
  match subtreeAt t p with
  | none => none
  | some n =>
    if n.expanded = true ∧ n.children ≠ [] then some (0 :: p)
    else
      match next_sibling t p with
      | some s => some s
      | none => next_node_up t p

mutual

/-- The nested `last_sibling` helper of `TreeNode.previous_node`,
reproduced with its redundant fallback arm
(`node.children[-1] if (node.children and node.expanded) else node`):
descend into the last child (`children[-1]`, reached here by walking the
children list structurally to its last element, whose index is
`length - 1`) while the node is expanded with children. -/
def last_sibling : RTree → Path → Path
  | .node e cs, q =>
    if e = true ∧ cs ≠ [] then last_sibling_go cs 0 q
    else if cs ≠ [] ∧ e = true then (cs.length - 1) :: q else q

/-- Walk to the last element of a children list (called with the index of
its first element) and recurse into it: computes
`last_sibling children[-1] ((length - 1) :: q)`. -/
def last_sibling_go : List RTree → Nat → Path → Path
  | [], _, q => q
  | [c], i, q => last_sibling c (i :: q)
  | _ :: c2 :: rest, i, q => last_sibling_go (c2 :: rest) (i + 1) q

end

mutual

/-- The same helper with the redundant arm removed, following the spec's
authoritative reading: the fallback always returns the node itself.  This
is the "last visible descendant" of the spec. -/
def last_visible_descendant : RTree → Path → Path
  | .node e cs, q =>
    if e = true ∧ cs ≠ [] then last_visible_descendant_go cs 0 q
    else q

/-- Companion of `last_visible_descendant` on children lists. -/
def last_visible_descendant_go : List RTree → Nat → Path → Path
  | [], _, q => q
  | [c], i, q => last_visible_descendant c (i :: q)
  | _ :: c2 :: rest, i, q => last_visible_descendant_go (c2 :: rest) (i + 1) q

end

/-- `TreeNode.previous_node`: the last visible descendant of the previous
sibling when one exists; else the parent; else `None`. -/
def previous_node (t : RTree) (p : Path) : Option Path :=
  match previous_sibling t p with
  | some s =>
    match subtreeAt t s with
    | some sn => some (last_sibling sn s)
    | none => none
  | none =>
    match p with
    | [] => none
    | _ :: rest => some rest

/-- `previous_node` with the simplified helper, for the refinement claim. -/
def previous_node_simplified (t : RTree) (p : Path) : Option Path :=
  match previous_sibling t p with
  | some s =>
    match subtreeAt t s with
    | some sn => some (last_visible_descendant sn s)
    | none => none
  | none =>
    match p with
    | [] => none
    | _ :: rest => some rest

/-- The testable-properties tree: root with children `[X, Y]`, `X` with
children `[X1, X2]`, every node expanded.  Positions: `X = [0]`,
`X1 = [0, 0]`, `X2 = [1, 0]`, `Y = [1]`. -/
def exampleTree : RTree :=
  .node true [.node true [.node true [], .node true []], .node true []]

/-! ### TreeControl cursor state -/

mutual

/-- The visible depth-first order walked by `TreeControl.find_cursor`: the
explicit-stack loop visits a node, then (iff `node.children and
node.expanded`) its children left to right before the remaining level,
i.e. preorder restricted by the `expanded` flags.  `visibleAux t q` lists,
in visiting order, the positions of the visible nodes of the subtree `t`
sitting at position `q`. -/
def visibleAux : RTree → Path → List Path
  | .node e cs, q =>
    q :: (if e = true ∧ cs ≠ [] then visibleChildren cs 0 q else [])

/-- Companion of `visibleAux`: children segments left to right, `i` the
index of the first listed child within its parent at position `q`. -/
def visibleChildren : List RTree → Nat → Path → List Path
  | [], _, _ => []
  | c :: rest, i, q => visibleAux c (i :: q) ++ visibleChildren rest (i + 1) q

end

/-- `TreeControl.find_cursor`: walk the visible nodes in order, counting
lines, and return the line at which the cursor's node is found (`None`
when the cursor is not in the visible set).  Node identity is by position
(the `node_id == node_id` comparison of the source, ids being unique). -/
def find_cursor (t : RTree) (cursor : Path) : Option Nat :=
  (visibleAux t []).findIdx? (fun r => r == cursor)

/-- All proper ancestors of a position are expanded — the condition for
the node to be in the visible traversal (the root itself is always
visible). -/
def ancestors_expanded (t : RTree) : Path → Bool
  | [] => true
  | _ :: rest =>
    ancestors_expanded t rest &&
      (match subtreeAt t rest with
       | some n => n.expanded
       | none => false)

/-- Replace the `i`-th element of a children list. -/
def modifyChild (f : RTree → RTree) : Nat → List RTree → List RTree
  | _, [] => []
  | 0, c :: rest => f c :: rest
  | i + 1, c :: rest => c :: modifyChild f i rest

/-- `TreeNode.expand(expanded)` on the node at the given root-first index
path: sets `self._expanded = expanded` (plus a repaint request, which has
no observable state here).  A path naming no node leaves the tree
unchanged (the source can only call `expand` on an existing node). -/
def setExpanded : RTree → List Nat → Bool → RTree
  | .node _ cs, [], b => .node b cs
  | .node e cs, i :: rest, b => .node e (modifyChild (fun c => setExpanded c rest b) i cs)

/-- The `TreeControl` state touched by the cursor claims: the tree of
nodes (owning `expanded` flags), and the reactive attributes `cursor`
(as a position), `cursor_line` (a Python `int`) and `show_cursor`. -/
structure TCState where
  tree : RTree
  cursor : Path
  cursor_line : Int
  show_cursor : Bool
deriving DecidableEq

/-- State after `TreeControl.__init__`: only the root exists, `cursor` is
the root id, `cursor_line = 0`, `show_cursor = False`; `add` calls build
the tree without touching the cursor attributes, so an arbitrary built
control is `TCState.init t` for its tree `t`. -/
def TCState.init (t : RTree) : TCState :=
  { tree := t, cursor := [], cursor_line := 0, show_cursor := false }

/-- `TreeControl.cursor_down`: reveal the cursor on the first call,
otherwise advance to `next_node` when it exists, updating `cursor_line`
and `cursor` together. -/
def cursor_down (s : TCState) : TCState :=
  if s.show_cursor = false then { s with show_cursor := true }
  else
    match next_node s.tree s.cursor with
    | some m => { s with cursor_line := s.cursor_line + 1, cursor := m }
    | none => s

/-- `TreeControl.cursor_up`: reveal the cursor on the first call,
otherwise move to `previous_node` when it exists. -/
def cursor_up (s : TCState) : TCState :=
  if s.show_cursor = false then { s with show_cursor := true }
  else
    match previous_node s.tree s.cursor with
    | some m => { s with cursor_line := s.cursor_line - 1, cursor := m }
    | none => s

/-- The operations of the cursor-consistency claim: `cursor_down`,
`cursor_up`, and `expand(b)` / `collapse` (= `expand false`, also what
`toggle` calls) on the node at a root-first index path. -/
inductive TreeOp where
  | cursor_down
  | cursor_up
  | expand (q : List Nat) (b : Bool)
deriving DecidableEq

/-- Apply one tree operation. -/
def stepTree (s : TCState) : TreeOp → TCState
  | .cursor_down => cursor_down s
  | .cursor_up => cursor_up s
  | .expand q b => { s with tree := setExpanded s.tree q b }

/-- Run a sequence of tree operations. -/
def runTree (s : TCState) (ops : List TreeOp) : TCState :=
  ops.foldl stepTree s

/-! ### Tree lemmas -/

mutual

theorem last_sibling_eq_lvd : (t : RTree) → (q : Path) →
    last_sibling t q = last_visible_descendant t q
  | .node e cs, q => by
    by_cases h : e = true ∧ cs ≠ []
    · rw [last_sibling, last_visible_descendant, if_pos h, if_pos h,
        last_sibling_go_eq_lvd_go]
    · have h2 : ¬(cs ≠ [] ∧ e = true) := fun hc => h ⟨hc.2, hc.1⟩
      rw [last_sibling, last_visible_descendant, if_neg h, if_neg h, if_neg h2]

theorem last_sibling_go_eq_lvd_go : (cs : List RTree) → (i : Nat) → (q : Path) →
    last_sibling_go cs i q = last_visible_descendant_go cs i q
  | [], _, _ => rfl
  | [c], i, q => by
    rw [last_sibling_go, last_visible_descendant_go, last_sibling_eq_lvd]
  | c1 :: c2 :: rest, i, q => by
    rw [last_sibling_go, last_visible_descendant_go, last_sibling_go_eq_lvd_go]

end

theorem last_sibling_self {n : RTree} (q : Path)
    (h : ¬(n.expanded = true ∧ n.children ≠ [])) : last_sibling n q = q := by
  cases n with
  | node e cs =>
    simp only [RTree.expanded, RTree.children] at h
    have h2 : ¬(cs ≠ [] ∧ e = true) := fun hc => h ⟨hc.2, hc.1⟩
    rw [last_sibling, if_neg h, if_neg h2]

/-- A position list always has itself as the head of its `tails`. -/
theorem tails_self_cons (p : Path) : p.tails = p :: p.tails.drop 1 := by
  cases p <;> simp

/-- The ascending `while` loop of `next_node` is the first `next_sibling`
found among the proper ancestors (the tails beyond the position itself),
in nearest-first order. -/
theorem next_node_up_eq (t : RTree) : ∀ p : Path,
    next_node_up t p = (p.tails.drop 1).findSome? fun a => next_sibling t a
  | [] => by simp [next_node_up]
  | i :: rest => by
    rw [next_node_up, List.tails_cons, List.drop_one, List.tail_cons]
    rw [tails_self_cons rest, List.findSome?_cons]
    cases hns : next_sibling t rest with
    | some s => simp
    | none => simpa using next_node_up_eq t rest

/-! ### Claims about tree traversal -/

/-- C8: the dead fallback arm of the nested `last_sibling` helper
(`node.children[-1] if (node.children and node.expanded) else node`) is
unreachable — the recursive case already took every node that is expanded
with children — so the helper always returns the node itself from its
fallback, and `previous_node` is extensionally equal to the simplified
version whose helper's else-branch is just the node. -/
theorem claim_C8_dead_branch :
    (∀ (n : RTree) (q : Path), last_sibling n q = last_visible_descendant n q) ∧
    (∀ (t : RTree) (p : Path), previous_node t p = previous_node_simplified t p) := by
  refine ⟨last_sibling_eq_lvd, fun t p => ?_⟩
  simp only [previous_node.eq_def, previous_node_simplified.eq_def, last_sibling_eq_lvd]

/-- C5: `next_node` is the first child when the node is expanded with
children, and otherwise the first `next_sibling` among the node and its
ancestors walking upward (`none` when there is none — the root's
`next_sibling` is `none`); on the example tree the `next_node` sequence
from the root is `X, X1, X2, Y, none`. -/
theorem claim_C5_next_node :
    (∀ (t : RTree) (p : Path) (n : RTree), subtreeAt t p = some n →
      ((n.expanded = true ∧ n.children ≠ [] → next_node t p = some (0 :: p)) ∧
       (¬(n.expanded = true ∧ n.children ≠ []) →
         next_node t p = (p.tails.findSome? fun a => next_sibling t a)))) ∧
    (next_node exampleTree [] = some [0] ∧
     next_node exampleTree [0] = some [0, 0] ∧
     next_node exampleTree [0, 0] = some [1, 0] ∧
     next_node exampleTree [1, 0] = some [1] ∧
     next_node exampleTree [1] = none) := by
  constructor
  · intro t p n hp
    constructor
    · intro hd
      rw [next_node, hp]
      simp only [if_pos hd]
    · intro hd
      rw [next_node, hp]
      simp only [if_neg hd]
      rw [tails_self_cons p, List.findSome?_cons]
      cases hns : next_sibling t p with
      | some s => simp
      | none => simpa using next_node_up_eq t p
  · exact ⟨by decide, by decide, by decide, by decide, by decide⟩

/-- Witness for C5's quantified part: the root of the example tree is
expanded with children, so its `next_node` is its first child `X`. -/
theorem claim_C5_next_node_witness :
    subtreeAt exampleTree [] =
      some (.node true [.node true [.node true [], .node true []], .node true []]) ∧
    next_node exampleTree [] = some [0] := by
  refine ⟨by decide, ?_⟩
  exact (claim_C5_next_node.1 exampleTree []
    (.node true [.node true [.node true [], .node true []], .node true []])
    (by decide)).1 ⟨rfl, by decide⟩

/-- C6: `previous_node` is the last visible descendant of the previous
sibling when one exists (recursively the last child while expanded with
children, else the node itself), otherwise the parent, otherwise `none`;
on the example tree `previous_node Y = X2` and `previous_node X1 = X`. -/
theorem claim_C6_previous_node :
    (∀ (t : RTree) (p s : Path) (sn : RTree),
      previous_sibling t p = some s → subtreeAt t s = some sn →
      previous_node t p = some (last_visible_descendant sn s)) ∧
    (∀ (t : RTree) (p : Path), previous_sibling t p = none →
      previous_node t p = (match p with | [] => none | _ :: rest => some rest)) ∧
    (previous_node exampleTree [1] = some [1, 0] ∧
     previous_node exampleTree [0, 0] = some [0]) := by
  refine ⟨fun t p s sn hs hsn => ?_, fun t p hnone => ?_, by decide, by decide⟩
  · simp only [previous_node.eq_def, hs, hsn]
    rw [last_sibling_eq_lvd]
  · simp only [previous_node.eq_def, hnone]

/-- Witness for C6's quantified clauses: `Y`'s previous sibling is `X`,
whose last visible descendant is `X2`; `X1` has no previous sibling and
falls back to its parent `X`. -/
theorem claim_C6_previous_node_witness :
    previous_sibling exampleTree [1] = some [0] ∧
    subtreeAt exampleTree [0] = some (.node true [.node true [], .node true []]) ∧
    previous_node exampleTree [1] =
      some (last_visible_descendant (.node true [.node true [], .node true []]) [0]) ∧
    previous_sibling exampleTree [0, 0] = none ∧
    previous_node exampleTree [0, 0] = some [0] := by
  refine ⟨by decide, by decide, ?_, by decide, ?_⟩
  · exact claim_C6_previous_node.1 exampleTree [1] [0]
      (.node true [.node true [], .node true []]) (by decide) (by decide)
  · exact claim_C6_previous_node.2.1 exampleTree [0, 0] (by decide)

/-- C7: while `show_cursor` is false, `cursor_down`/`cursor_up` only set
`show_cursor` and leave `cursor` and `cursor_line` unchanged; while it is
true they move to `next_node`/`previous_node` only when one exists,
updating `cursor` and `cursor_line` together; and on an unexpanded,
childless root the second `cursor_down` leaves the cursor at the root. -/
theorem claim_C7_cursor_moves :
    (∀ s : TCState, s.show_cursor = false →
      cursor_down s = { s with show_cursor := true } ∧
      cursor_up s = { s with show_cursor := true }) ∧
    (∀ s : TCState, s.show_cursor = true →
      ((∀ m, next_node s.tree s.cursor = some m →
          cursor_down s = { s with cursor := m, cursor_line := s.cursor_line + 1 }) ∧
       (next_node s.tree s.cursor = none → cursor_down s = s) ∧
       (∀ m, previous_node s.tree s.cursor = some m →
          cursor_up s = { s with cursor := m, cursor_line := s.cursor_line - 1 }) ∧
       (previous_node s.tree s.cursor = none → cursor_up s = s))) ∧
    (runTree (TCState.init (.node false [])) [.cursor_down] =
      { tree := .node false [], cursor := [], cursor_line := 0, show_cursor := true } ∧
     runTree (TCState.init (.node false [])) [.cursor_down, .cursor_down] =
      { tree := .node false [], cursor := [], cursor_line := 0, show_cursor := true }) := by
  refine ⟨fun s hs => ⟨?_, ?_⟩, fun s hs => ⟨fun m hm => ?_, fun hm => ?_,
    fun m hm => ?_, fun hm => ?_⟩, by decide, by decide⟩
  · rw [cursor_down, if_pos hs]
  · rw [cursor_up, if_pos hs]
  · rw [cursor_down, if_neg (by simp [hs]), hm]
  · rw [cursor_down, if_neg (by simp [hs]), hm]
  · rw [cursor_up, if_neg (by simp [hs]), hm]
  · rw [cursor_up, if_neg (by simp [hs]), hm]

/-- Witness for C7's quantified clauses on the one-node scenario state. -/
theorem claim_C7_cursor_moves_witness :
    (TCState.init (.node false [])).show_cursor = false ∧
    cursor_down (TCState.init (.node false [])) =
      { TCState.init (.node false []) with show_cursor := true } := by
  exact ⟨rfl, (claim_C7_cursor_moves.1 (TCState.init (.node false [])) rfl).1⟩

/-! ### next_node / previous_node inversion -/

theorem subtreeAt_parent {t : RTree} {i : Nat} {rest : Path} {c : RTree}
    (h : subtreeAt t (i :: rest) = some c) :
    ∃ n, subtreeAt t rest = some n ∧ n.children.get? i = some c := by
  rw [subtreeAt] at h
  cases hx : subtreeAt t rest with
  | none => rw [hx] at h; exact absurd h (by simp)
  | some n =>
    rw [hx] at h
    exact ⟨n, rfl, h⟩

theorem last_sibling_go_spec : ∀ (cs : List RTree) (i : Nat) (q : Path) (c : RTree),
    cs.getLast? = some c →
    last_sibling_go cs i q = last_sibling c ((i + (cs.length - 1)) :: q)
  | [], _, _, _ => by intro h; simp at h
  | [c'], i, q, c => by
    intro h
    simp only [List.getLast?_singleton, Option.some.injEq] at h
    subst h
    simp [last_sibling_go]
  | c1 :: c2 :: rest, i, q, c => by
    intro h
    rw [List.getLast?_cons_cons] at h
    rw [last_sibling_go, last_sibling_go_spec (c2 :: rest) (i + 1) q c h]
    have hidx : i + 1 + ((c2 :: rest).length - 1) = i + ((c1 :: c2 :: rest).length - 1) := by
      simp only [List.length_cons]
      omega
    rw [hidx]

/-- On an expanded node with children, the `last_sibling` helper descends
into the last child. -/
theorem last_sibling_descend {e : Bool} {cs : List RTree} {q : Path} {c : RTree}
    (he : e = true) (hc : cs.getLast? = some c) :
    last_sibling (.node e cs) q = last_sibling c ((cs.length - 1) :: q) := by
  have hne : cs ≠ [] := by intro hnil; rw [hnil] at hc; exact absurd hc (by simp)
  rw [last_sibling, if_pos ⟨he, hne⟩, last_sibling_go_spec cs 0 q c hc]
  rw [Nat.zero_add]

theorem ancestors_expanded_cons {t : RTree} {i : Nat} {rest : Path}
    (h : ancestors_expanded t (i :: rest) = true) :
    ancestors_expanded t rest = true ∧
      ∀ n, subtreeAt t rest = some n → n.expanded = true := by
  rw [ancestors_expanded] at h
  rcases (Bool.and_eq_true _ _).mp h with ⟨h1, h2⟩
  refine ⟨h1, fun n hn => ?_⟩
  simp only [hn] at h2
  exact h2

theorem next_sibling_none {t : RTree} {i : Nat} {rest : Path} {n : RTree}
    (hp : subtreeAt t rest = some n)
    (h : next_sibling t (i :: rest) = none) :
    ¬(i + 1 < n.children.length) := by
  intro hlt
  simp only [next_sibling, hp, if_pos hlt] at h
  exact Option.noConfusion h

/-- The ancestor-walk case of the inversion: when the walk starting from a
position whose node has no next sibling finds `m`, then `previous_node m`
descends back to exactly that position via `last_sibling`. -/
theorem up_lemma (t : RTree) : ∀ (q : Path) (nq : RTree) (m : Path),
    subtreeAt t q = some nq →
    ancestors_expanded t q = true →
    next_sibling t q = none →
    next_node_up t q = some m →
    previous_node t m = some (last_sibling nq q)
  | [], nq, m => by
    intro _ _ _ hup
    rw [next_node_up] at hup
    exact absurd hup (by simp)
  | i :: rest, nq, m => by
    intro hq hanc hns hup
    obtain ⟨nrest, hrest, hchild⟩ := subtreeAt_parent hq
    obtain ⟨hanc', hexpAll⟩ := ancestors_expanded_cons hanc
    have hexp : nrest.expanded = true := hexpAll nrest hrest
    have hi : i < nrest.children.length := by
      rcases List.get?_eq_some.mp hchild with ⟨hw, _⟩
      exact hw
    have hnl := next_sibling_none hrest hns
    have hilen : nrest.children.length = i + 1 := by omega
    have hlast : nrest.children.getLast? = some nq := by
      rw [List.getLast?_eq_getElem?, hilen]
      simpa using hchild
    have hkey : last_sibling nrest rest = last_sibling nq (i :: rest) := by
      cases nrest with
      | node e cs =>
        simp only [RTree.expanded] at hexp
        simp only [RTree.children] at hlast hilen
        rw [last_sibling_descend hexp hlast, hilen]
        simp
    rw [next_node_up] at hup
    cases hns2 : next_sibling t rest with
    | some s =>
      simp only [hns2] at hup
      cases rest with
      | nil => rw [next_sibling] at hns2; exact absurd hns2 (by simp)
      | cons j rrest =>
        rw [next_sibling] at hns2
        cases hpar : subtreeAt t rrest with
        | none => simp [hpar] at hns2
        | some npar =>
          simp only [hpar] at hns2
          by_cases hjlt : j + 1 < npar.children.length
          · rw [if_pos hjlt] at hns2
            injection hns2 with hs
            injection hup with hm
            subst hs; subst hm
            rw [previous_node.eq_def]
            simp only [previous_sibling, hpar, if_neg (by omega : ¬(j + 1 = 0))]
            simp only [Nat.add_sub_cancel, hrest, hkey]
          · rw [if_neg hjlt] at hns2
            exact absurd hns2 (by simp)
    | none =>
      simp only [hns2] at hup
      have hrec := up_lemma t rest nrest m hrest hanc' hns2 hup
      rw [hrec, hkey]

/-- When a node at a visible position (all proper ancestors expanded) has
a `next_node`, that node's `previous_node` is the original position. -/
theorem next_prev_inverse {t : RTree} {p m : Path} {np : RTree}
    (hp : subtreeAt t p = some np) (hanc : ancestors_expanded t p = true)
    (h : next_node t p = some m) : previous_node t m = some p := by
  simp only [next_node, hp] at h
  by_cases hd : np.expanded = true ∧ np.children ≠ []
  · rw [if_pos hd] at h
    injection h with hm
    subst hm
    rw [previous_node.eq_def]
    simp [previous_sibling, hp]
  · rw [if_neg hd] at h
    cases hns : next_sibling t p with
    | some s =>
      simp only [hns] at h
      injection h with hm
      subst hm
      cases p with
      | nil => rw [next_sibling] at hns; exact absurd hns (by simp)
      | cons i rest =>
        rw [next_sibling] at hns
        cases hpar : subtreeAt t rest with
        | none => simp [hpar] at hns
        | some npar =>
          simp only [hpar] at hns
          by_cases hlt : i + 1 < npar.children.length
          · rw [if_pos hlt] at hns
            injection hns with hs
            subst hs
            rw [previous_node.eq_def]
            simp only [previous_sibling, hpar, if_neg (by omega : ¬(i + 1 = 0))]
            simp only [Nat.add_sub_cancel, hp]
            rw [last_sibling_self _ hd]
          · rw [if_neg hlt] at hns
            exact absurd hns (by simp)
    | none =>
      simp only [hns] at h
      rw [up_lemma t p np m hp hanc hns h, last_sibling_self _ hd]

/-- C10: for every node whose ancestors are all expanded (so the node is
in the visible traversal), `previous_node` undoes `next_node`: if
`next_node` yields `m`, then `previous_node m` yields the node. -/
theorem claim_C10_traversal_inverse :
    ∀ (t : RTree) (p m : Path) (np : RTree),
      subtreeAt t p = some np → ancestors_expanded t p = true →
      next_node t p = some m → previous_node t m = some p :=
  fun _ _ _ _ hp hanc h => next_prev_inverse hp hanc h

/-- Witness for C10 on the example tree at `X2` (whose `next_node` is the
ancestor-sibling `Y`). -/
theorem claim_C10_traversal_inverse_witness :
    subtreeAt exampleTree [1, 0] = some (.node true []) ∧
    ancestors_expanded exampleTree [1, 0] = true ∧
    next_node exampleTree [1, 0] = some [1] ∧
    previous_node exampleTree [1] = some [1, 0] :=
  ⟨by decide, by decide, by decide,
    claim_C10_traversal_inverse exampleTree [1, 0] [1] (.node true [])
      (by decide) (by decide) (by decide)⟩

/-! ### Structure of the visible traversal

`visibleAux` lists the visible positions of a subtree in the preorder that
`find_cursor` walks.  The lemmas here give: every listed position extends
the subtree's position (suffix), listed positions are valid with all
proper ancestors expanded, the list has no duplicates, and consecutive
listed positions are related by `next_node`. -/

theorem visibleAux_head (t : RTree) (q : Path) : (visibleAux t q).head? = some q := by
  cases t
  rw [visibleAux]
  rfl

theorem visibleAux_ne_nil (t : RTree) (q : Path) : visibleAux t q ≠ [] := by
  cases t
  rw [visibleAux]
  simp

mutual

theorem mem_visibleAux_suffix : (t : RTree) → ∀ (q r : Path), r ∈ visibleAux t q → q <:+ r
  | .node e cs => by
    intro q r hr
    rw [visibleAux] at hr
    rcases List.mem_cons.mp hr with h | h
    · subst h
      exact List.suffix_refl r
    · by_cases hd : e = true ∧ cs ≠ []
      · rw [if_pos hd] at h
        obtain ⟨j, _, hsuf⟩ := mem_visibleChildren_suffix cs 0 q r h
        exact (List.suffix_cons j q).trans hsuf
      · rw [if_neg hd] at h
        exact absurd h (by simp)

theorem mem_visibleChildren_suffix : (cs : List RTree) → ∀ (i : Nat) (q r : Path),
    r ∈ visibleChildren cs i q → ∃ j, i ≤ j ∧ (j :: q) <:+ r
  | [] => by
    intro i q r hr
    rw [visibleChildren] at hr
    exact absurd hr (by simp)
  | c :: rest => by
    intro i q r hr
    rw [visibleChildren] at hr
    rcases List.mem_append.mp hr with h | h
    · exact ⟨i, le_refl i, mem_visibleAux_suffix c (i :: q) r h⟩
    · obtain ⟨j, hj, hsuf⟩ := mem_visibleChildren_suffix rest (i + 1) q r h
      exact ⟨j, by omega, hsuf⟩

end

/-- Two suffixes of the same list with equal lengths coincide. -/
theorem suffix_eq_of_length {α : Type} {s1 s2 r : List α}
    (h1 : s1 <:+ r) (h2 : s2 <:+ r) (hl : s1.length = s2.length) : s1 = s2 := by
  obtain ⟨w1, hw1⟩ := h1
  obtain ⟨w2, hw2⟩ := h2
  have heq : w2 ++ s2 = w1 ++ s1 := by rw [hw1, hw2]
  have hwl : w2.length = w1.length := by
    have := congrArg List.length heq
    simp only [List.length_append] at this
    omega
  exact ((List.append_inj heq hwl).2).symm

mutual

theorem nodup_visibleAux : (t : RTree) → ∀ (q : Path), (visibleAux t q).Nodup
  | .node e cs => by
    intro q
    rw [visibleAux]
    by_cases hd : e = true ∧ cs ≠ []
    · rw [if_pos hd]
      rw [List.nodup_cons]
      refine ⟨?_, nodup_visibleChildren cs 0 q⟩
      intro hq
      obtain ⟨j, _, hsuf⟩ := mem_visibleChildren_suffix cs 0 q q hq
      have := hsuf.length_le
      simp at this
    · rw [if_neg hd]
      simp

theorem nodup_visibleChildren : (cs : List RTree) → ∀ (i : Nat) (q : Path),
    (visibleChildren cs i q).Nodup
  | [] => by
    intro i q
    rw [visibleChildren]
    exact List.nodup_nil
  | c :: rest => by
    intro i q
    rw [visibleChildren]
    refine List.Nodup.append (nodup_visibleAux c (i :: q))
      (nodup_visibleChildren rest (i + 1) q) ?_
    intro r hrA hrB
    have hsufA := mem_visibleAux_suffix c (i :: q) r hrA
    obtain ⟨j, hj, hsufB⟩ := mem_visibleChildren_suffix rest (i + 1) q r hrB
    have heq : (i :: q) = (j :: q) := suffix_eq_of_length hsufA hsufB (by simp)
    injection heq with hij _
    omega

end

/-- The child at index `i` of the node at `q`, resolved as a position. -/
theorem child_subtree {g : RTree} {q : Path} {e : Bool} {full : List RTree} {i : Nat} {c : RTree}
    (hsub : subtreeAt g q = some (.node e full)) (hget : full.get? i = some c) :
    subtreeAt g (i :: q) = some c := by
  rw [subtreeAt, hsub]
  exact hget

mutual

theorem anc_visibleAux : (t : RTree) → ∀ (g : RTree) (q : Path),
    subtreeAt g q = some t → ancestors_expanded g q = true →
    ∀ r ∈ visibleAux t q, (subtreeAt g r).isSome = true ∧ ancestors_expanded g r = true
  | .node e cs => by
    intro g q hq hanc r hr
    rw [visibleAux] at hr
    rcases List.mem_cons.mp hr with h | h
    · subst h
      exact ⟨by rw [hq]; rfl, hanc⟩
    · by_cases hd : e = true ∧ cs ≠ []
      · rw [if_pos hd] at h
        have hsub : subtreeAt g q = some (.node true cs) := by rw [← hd.1]; exact hq
        exact anc_visibleChildren cs g 0 q cs hsub (by simp) hanc r h
      · rw [if_neg hd] at h
        exact absurd h (by simp)

theorem anc_visibleChildren : (cs : List RTree) → ∀ (g : RTree) (i : Nat) (q : Path)
    (full : List RTree),
    subtreeAt g q = some (.node true full) →
    (∀ k, cs.get? k = full.get? (i + k)) →
    ancestors_expanded g q = true →
    ∀ r ∈ visibleChildren cs i q, (subtreeAt g r).isSome = true ∧ ancestors_expanded g r = true
  | [] => by
    intro g i q full _ _ _ r hr
    rw [visibleChildren] at hr
    exact absurd hr (by simp)
  | c :: rest => by
    intro g i q full hsub hanchor hanc r hr
    rw [visibleChildren] at hr
    rcases List.mem_append.mp hr with h | h
    · have hget : full.get? i = some c := by
        have := hanchor 0
        simpa using this.symm
      have hc : subtreeAt g (i :: q) = some c := child_subtree hsub hget
      have hanc' : ancestors_expanded g (i :: q) = true := by
        rw [ancestors_expanded]
        simp only [hsub, hanc]
        rfl
      exact anc_visibleAux c g (i :: q) hc hanc' r h
    · have hanchor' : ∀ k, rest.get? k = full.get? (i + 1 + k) := fun k => by
        have h1 := hanchor (k + 1)
        rw [List.get?_cons_succ] at h1
        rw [h1]
        congr 1
        omega
      exact anc_visibleChildren rest g (i + 1) q full hsub hanchor' hanc r h

end

/-- Where the traversal goes after leaving the whole subtree at `q`: the
next sibling of `q` when it exists, else the ascending walk from `q`. -/
def exitNext (g : RTree) (q : Path) : Option Path :=
  match next_sibling g q with
  | some s => some s
  | none => next_node_up g q

theorem next_node_up_cons (g : RTree) (j : Nat) (q : Path) :
    next_node_up g (j :: q) = exitNext g q := by
  rw [next_node_up, exitNext]

theorem next_node_of_no_descend {g : RTree} {q : Path} {n : RTree}
    (hq : subtreeAt g q = some n) (hd : ¬(n.expanded = true ∧ n.children ≠ [])) :
    next_node g q = exitNext g q := by
  simp only [next_node, hq, if_neg hd, exitNext]

theorem next_node_of_descend {g : RTree} {q : Path} {n : RTree}
    (hq : subtreeAt g q = some n) (hd : n.expanded = true ∧ n.children ≠ []) :
    next_node g q = some (0 :: q) := by
  simp only [next_node, hq, if_pos hd]

theorem exitNext_root (g : RTree) : exitNext g [] = none := by
  rw [exitNext, next_sibling, next_node_up]

mutual

theorem chain_visibleAux : (t : RTree) → ∀ (g : RTree) (q : Path),
    subtreeAt g q = some t →
    List.Chain' (fun a b => next_node g a = some b) (visibleAux t q) ∧
    (∀ lq, (visibleAux t q).getLast? = some lq → next_node g lq = exitNext g q)
  | .node e cs => by
    intro g q hq
    by_cases hd : e = true ∧ cs ≠ []
    · rw [visibleAux, if_pos hd]
      have hsub : subtreeAt g q = some (.node true cs) := by rw [← hd.1]; exact hq
      obtain ⟨hhead, hchain, hlast⟩ :=
        chain_visibleChildren cs g 0 q cs hsub (by simp) (by simp)
      have hLne : visibleChildren cs 0 q ≠ [] := by
        intro h0
        have hh := hhead hd.2
        rw [h0] at hh
        exact absurd hh (by simp)
      constructor
      · rw [List.chain'_cons']
        refine ⟨?_, hchain⟩
        intro b hb
        rw [hhead hd.2] at hb
        have hb0 : (0 : Nat) :: q = b := by simpa using hb
        subst hb0
        exact next_node_of_descend hq hd
      · intro lq hlq
        cases hL : visibleChildren cs 0 q with
        | nil => exact absurd hL hLne
        | cons x L2 =>
          rw [hL, List.getLast?_cons_cons] at hlq
          apply hlast lq
          rw [hL]
          exact hlq
    · rw [visibleAux, if_neg hd]
      constructor
      · simp
      · intro lq hlq
        have hlq0 : q = lq := by simpa using hlq
        subst hlq0
        exact next_node_of_no_descend hq hd

theorem chain_visibleChildren : (cs : List RTree) → ∀ (g : RTree) (i : Nat) (q : Path)
    (full : List RTree),
    subtreeAt g q = some (.node true full) →
    (∀ k, cs.get? k = full.get? (i + k)) →
    full.length = i + cs.length →
    ((cs ≠ [] → (visibleChildren cs i q).head? = some (i :: q)) ∧
     List.Chain' (fun a b => next_node g a = some b) (visibleChildren cs i q) ∧
     (∀ lq, (visibleChildren cs i q).getLast? = some lq → next_node g lq = exitNext g q))
  | [] => by
    intro g i q full hsub hanchor hlen
    rw [visibleChildren]
    exact ⟨fun h => absurd rfl h, by simp, fun lq hlq => absurd hlq (by simp)⟩
  | c :: rest => by
    intro g i q full hsub hanchor hlen
    have hget : full.get? i = some c := by
      have h0 := hanchor 0
      simpa using h0.symm
    have hc : subtreeAt g (i :: q) = some c := child_subtree hsub hget
    obtain ⟨hchainA, hlastA⟩ := chain_visibleAux c g (i :: q) hc
    have hanchorR : ∀ k, rest.get? k = full.get? (i + 1 + k) := fun k => by
      have h1 := hanchor (k + 1)
      rw [List.get?_cons_succ] at h1
      rw [h1]
      congr 1
      omega
    have hlenR : full.length = (i + 1) + rest.length := by
      rw [hlen]
      simp only [List.length_cons]
      omega
    obtain ⟨hheadR, hchainR, hlastR⟩ :=
      chain_visibleChildren rest g (i + 1) q full hsub hanchorR hlenR
    rw [visibleChildren]
    refine ⟨?_, ?_, ?_⟩
    · intro _
      rw [List.head?_append, visibleAux_head]
      rfl
    · refine List.Chain'.append hchainA hchainR ?_
      intro x hx y hy
      cases rest with
      | nil =>
        rw [visibleChildren] at hy
        exact absurd hy (by simp)
      | cons c2 rest2 =>
        have hy0 : (i + 1) :: q = y := by
          have hh := hheadR (by simp)
          rw [hh] at hy
          simpa using hy
        subst hy0
        have hxlast : next_node g x = exitNext g (i :: q) :=
          hlastA x (by simpa using hx)
        rw [hxlast, exitNext]
        have hlt : i + 1 < (RTree.node true full).children.length := by
          simp only [RTree.children]
          simp only [List.length_cons] at hlenR
          omega
        rw [next_sibling]
        simp only [hsub, if_pos hlt]
    · intro lq hlq
      cases rest with
      | nil =>
        have hBnil : visibleChildren ([] : List RTree) (i + 1) q = [] := by
          rw [visibleChildren]
        rw [hBnil, List.append_nil] at hlq
        have hx := hlastA lq hlq
        rw [hx, exitNext]
        have hnlt : ¬(i + 1 < (RTree.node true full).children.length) := by
          simp only [RTree.children]
          simp only [List.length_cons, List.length_nil] at hlen
          omega
        rw [next_sibling]
        simp only [hsub, if_neg hnlt]
        rw [next_node_up_cons, exitNext]
      | cons c2 rest2 =>
        have hBne : visibleChildren (c2 :: rest2) (i + 1) q ≠ [] := by
          rw [visibleChildren]
          have hne := visibleAux_ne_nil c2 ((i + 1) :: q)
          intro happ
          rcases List.append_eq_nil.mp happ with ⟨h1, _⟩
          exact hne h1
        rw [List.getLast?_append_of_ne_nil _ hBne] at hlq
        exact hlastR lq hlq

end

/-! ### Cursor line consistency -/

theorem findIdx?_of_nodup : ∀ (l : List Path) (n : Nat) (x : Path), l.Nodup →
    l.get? n = some x → l.findIdx? (fun r => r == x) = some n
  | [], n, x => by
    intro _ h
    simp at h
  | a :: l, 0, x => by
    intro _ h
    rw [List.get?_zero] at h
    have ha : a = x := by simpa using h
    subst ha
    rw [List.findIdx?_cons]
    simp
  | a :: l, n + 1, x => by
    intro hnd h
    rw [List.get?_cons_succ] at h
    have hmem : x ∈ l := List.get?_mem h
    have hax : (a == x) = false := by
      rw [beq_eq_false_iff_ne]
      intro hax
      subst hax
      exact (List.nodup_cons.mp hnd).1 hmem
    rw [List.findIdx?_cons, hax]
    simp only [Bool.false_eq_true, if_false]
    rw [List.findIdx?_succ, findIdx?_of_nodup l n x (List.nodup_cons.mp hnd).2 h]
    rfl

theorem ancestors_expanded_suffix {t : RTree} : ∀ (p a : Path) {na : RTree},
    ancestors_expanded t p = true → a <:+ p → a ≠ p →
    subtreeAt t a = some na → na.expanded = true := by
  intro p
  induction p with
  | nil =>
    intro a na _ hsuf hne _
    rw [List.suffix_nil] at hsuf
    exact absurd hsuf hne
  | cons i rest ih =>
    intro a na hanc hsuf hne hsub
    rcases List.suffix_cons_iff.mp hsuf with h | h
    · exact absurd h hne
    · obtain ⟨h1, h2⟩ := ancestors_expanded_cons hanc
      by_cases ha : a = rest
      · subst ha
        exact h2 na hsub
      · exact ih a h1 h ha hsub

/-- The invariant maintained by `cursor_down`/`cursor_up`: the cursor sits
at index `cursor_line` of the visible traversal of the control's tree. -/
def CursorInv (s : TCState) : Prop :=
  ∃ n : Nat, (visibleAux s.tree []).get? n = some s.cursor ∧ (n : Int) = s.cursor_line

theorem cursor_inv_init (t : RTree) : CursorInv (TCState.init t) := by
  refine ⟨0, ?_, rfl⟩
  rw [List.get?_zero]
  exact visibleAux_head t []

theorem cursor_down_inv {s : TCState} (h : CursorInv s) : CursorInv (cursor_down s) := by
  obtain ⟨n, hget, hline⟩ := h
  rw [cursor_down]
  by_cases hshow : s.show_cursor = false
  · rw [if_pos hshow]
    exact ⟨n, hget, hline⟩
  · rw [if_neg hshow]
    cases hnn : next_node s.tree s.cursor with
    | none => exact ⟨n, hget, hline⟩
    | some m =>
      obtain ⟨hchain, hlast⟩ := chain_visibleAux s.tree s.tree [] rfl
      have hnlt : n < (visibleAux s.tree []).length := by
        rcases List.get?_eq_some.mp hget with ⟨hw, _⟩
        exact hw
      by_cases hend : n + 1 < (visibleAux s.tree []).length
      · rw [List.chain'_iff_get] at hchain
        have hstep := hchain n (by omega)
        have hgetn : (visibleAux s.tree []).get ⟨n, by omega⟩ = s.cursor := by
          rcases List.get?_eq_some.mp hget with ⟨hw, hv⟩
          exact hv
        rw [hgetn, hnn] at hstep
        have hm : m = (visibleAux s.tree []).get ⟨n + 1, by omega⟩ := by
          injection hstep
        refine ⟨n + 1, ?_, ?_⟩
        · rw [hm]
          exact List.get?_eq_get _
        · push_cast
          omega
      · exfalso
        have hlastidx : (visibleAux s.tree []).getLast? = some s.cursor := by
          rw [List.getLast?_eq_getElem?]
          have hn1 : (visibleAux s.tree []).length - 1 = n := by omega
          rw [hn1, ← List.get?_eq_getElem?]
          exact hget
        have hx := hlast s.cursor hlastidx
        rw [exitNext_root] at hx
        rw [hx] at hnn
        exact Option.noConfusion hnn

theorem cursor_up_inv {s : TCState} (h : CursorInv s) : CursorInv (cursor_up s) := by
  obtain ⟨n, hget, hline⟩ := h
  rw [cursor_up]
  by_cases hshow : s.show_cursor = false
  · rw [if_pos hshow]
    exact ⟨n, hget, hline⟩
  · rw [if_neg hshow]
    cases hpn : previous_node s.tree s.cursor with
    | none => exact ⟨n, hget, hline⟩
    | some m =>
      cases n with
      | zero =>
        exfalso
        rw [List.get?_zero, visibleAux_head] at hget
        have hcur : s.cursor = [] := by simpa using hget.symm
        rw [hcur, previous_node.eq_def] at hpn
        simp [previous_sibling] at hpn
      | succ k =>
        obtain ⟨hchain, _⟩ := chain_visibleAux s.tree s.tree [] rfl
        have hklt : k + 1 < (visibleAux s.tree []).length := by
          rcases List.get?_eq_some.mp hget with ⟨hw, _⟩
          exact hw
        rw [List.chain'_iff_get] at hchain
        have hstep := hchain k (by omega)
        have hgetk1 : (visibleAux s.tree []).get ⟨k + 1, by omega⟩ = s.cursor := by
          rcases List.get?_eq_some.mp hget with ⟨hw, hv⟩
          exact hv
        rw [hgetk1] at hstep
        have hpkmem : (visibleAux s.tree []).get ⟨k, by omega⟩ ∈ visibleAux s.tree [] :=
          List.get_mem _ _ _
        obtain ⟨hsome, hanc⟩ := anc_visibleAux s.tree s.tree [] rfl rfl _ hpkmem
        obtain ⟨npk, hnpk⟩ := Option.isSome_iff_exists.mp hsome
        have hinv := next_prev_inverse hnpk hanc hstep
        rw [hinv] at hpn
        have hm : (visibleAux s.tree []).get ⟨k, by omega⟩ = m := by
          injection hpn
        refine ⟨k, ?_, ?_⟩
        · rw [← hm]
          exact List.get?_eq_get _
        · push_cast at hline ⊢
          omega

theorem run_cursor_inv : ∀ (ops : List TreeOp) (s : TCState),
    (∀ op ∈ ops, op = TreeOp.cursor_down ∨ op = TreeOp.cursor_up) →
    CursorInv s → CursorInv (runTree s ops)
  | [], s => fun _ h => h
  | op :: rest, s => by
    intro hops h
    have hstep : CursorInv (stepTree s op) := by
      rcases hops op (by simp) with h1 | h1
      · subst h1
        exact cursor_down_inv h
      · subst h1
        exact cursor_up_inv h
    have hrec := run_cursor_inv rest (stepTree s op)
      (fun o ho => hops o (by simp [ho])) hstep
    simpa [runTree, List.foldl] using hrec

/-! ### Claims about cursor line consistency -/

/-- The C4 counterexample scenario: tree `root(expanded)[A(expanded)[A1],
B]`; four `cursor_down` calls put the cursor on `B` at `cursor_line = 3`,
then collapsing `A` removes a line above the cursor without touching
`cursor_line`. -/
def collapseScenario : TCState :=
  runTree (TCState.init (.node true [.node true [.node true []], .node true []]))
    [.cursor_down, .cursor_down, .cursor_down, .cursor_down, .expand [0] false]

/-- C4 counterexample: after `cursor_down` × 4 and `collapse(A)`, the
cursor node `B` is still visible (valid position, all ancestors expanded)
and `show_cursor` is true, but `find_cursor` returns line 2 while
`cursor_line` still holds 3 — the claimed consistency fails once a
collapse happens above the cursor. -/
theorem claim_C4_counterexample :
    collapseScenario.show_cursor = true ∧
    (subtreeAt collapseScenario.tree collapseScenario.cursor).isSome = true ∧
    ancestors_expanded collapseScenario.tree collapseScenario.cursor = true ∧
    find_cursor collapseScenario.tree collapseScenario.cursor = some 2 ∧
    collapseScenario.cursor_line = 3 ∧ ((2 : Int) ≠ (3 : Int)) := by
  exact ⟨by decide, by decide, by decide, by decide, by decide, by decide⟩

/-- C4 (amended): for sequences of `cursor_down`/`cursor_up` calls only,
whenever `show_cursor` is true, `find_cursor()` returns exactly the index
held by `cursor_line` (the cursor stays visible); and — for any tree and
cursor position — `find_cursor()` returns `none` whenever a proper
ancestor of the cursor node is collapsed.  (Sequences containing
`expand`/`collapse` can break the first part, as the counterexample
shows, because collapsing a node above the cursor shifts its visible line
while `cursor_line` is not recomputed.) -/
theorem claim_C4_cursor_line :
    (∀ (t : RTree) (ops : List TreeOp),
      (∀ op ∈ ops, op = TreeOp.cursor_down ∨ op = TreeOp.cursor_up) →
      (runTree (TCState.init t) ops).show_cursor = true →
      ∃ n : Nat,
        find_cursor (runTree (TCState.init t) ops).tree
            (runTree (TCState.init t) ops).cursor = some n ∧
          (n : Int) = (runTree (TCState.init t) ops).cursor_line) ∧
    (∀ (t : RTree) (p a : Path) (na : RTree),
      a <:+ p → a ≠ p → subtreeAt t a = some na → na.expanded = false →
      find_cursor t p = none) := by
  constructor
  · intro t ops hops _
    obtain ⟨n, hget, hline⟩ := run_cursor_inv ops (TCState.init t) hops (cursor_inv_init t)
    refine ⟨n, ?_, hline⟩
    rw [find_cursor]
    exact findIdx?_of_nodup _ n _ (nodup_visibleAux _ []) hget
  · intro t p a na hsuf hne hsub hcol
    rw [find_cursor, List.findIdx?_eq_none_iff]
    intro r hr
    by_cases hrp : r = p
    · exfalso
      subst hrp
      obtain ⟨_, hanc⟩ := anc_visibleAux t t [] rfl rfl r hr
      have hexp := ancestors_expanded_suffix r a hanc hsuf hne hsub
      rw [hcol] at hexp
      exact Bool.noConfusion hexp
    · simp [hrp]

/-- Witness for C4's quantified clauses: two `cursor_down` calls on a
one-child tree, and a collapsed root hiding its child from
`find_cursor`. -/
theorem claim_C4_cursor_line_witness :
    ((runTree (TCState.init (.node true [.node true []]))
        [.cursor_down, .cursor_down]).show_cursor = true ∧
      ∃ n : Nat,
        find_cursor
            (runTree (TCState.init (.node true [.node true []]))
              [.cursor_down, .cursor_down]).tree
            (runTree (TCState.init (.node true [.node true []]))
              [.cursor_down, .cursor_down]).cursor = some n ∧
          (n : Int) =
            (runTree (TCState.init (.node true [.node true []]))
              [.cursor_down, .cursor_down]).cursor_line) ∧
    find_cursor (.node false [.node true []]) [0] = none :=
  ⟨⟨by decide,
    claim_C4_cursor_line.1 (.node true [.node true []])
      [.cursor_down, .cursor_down] (by decide) (by decide)⟩,
   claim_C4_cursor_line.2 (.node false [.node true []]) [0] [] (.node false [.node true []])
     (by decide) (by decide) (by decide) (by decide)⟩

end Textual
